import Mathlib

/-!
Verification development for the guardrails streaming server
(`guardserver.py`).  The definitions below are shallow embeddings of the
pipeline stages of the source: the Ordered Writer (`websocket_writer`),
the Sentence Assembler (`assemble_sentences` together with
`extract_complete_sentences_spacy`), the validation worker
(`validate_chunk_sync`), the Stream Producer (`stream_producer`) and a
small operational model of the Dispatcher / executor / Writer
composition (`sysStep` / `sysRun`).  Machine integers of the source are
Python unbounded ints, so `Nat` is used directly; wall-clock times are
abstract `Nat` stamps.
-/

namespace Guardrails

/-- Outcome tag of a validation result, mirroring the `"valid"` /
`"fail"` status strings put on `write_queue` by `validate_chunk_sync`. -/
inductive RStatus
  | valid
  | fail
deriving DecidableEq, Repr

/-- An item of the Writer's inbound `write_queue`: either the `None`
terminal put by the Dispatcher, or a `(status, seq, text, recv_time)`
tuple put by a validation worker. -/
inductive WItem
  | terminal
  | res : RStatus → Nat → String → Nat → WItem
deriving DecidableEq, Repr

/-- A message sent to the client by the Writer: a token payload
(instrumented with the sequence number it was emitted for), the
end-marker `{token: null}`, or the abort `{error: ...}` message. -/
inductive Out
  | tok : Nat → String → Out
  | endTok
  | err
deriving DecidableEq, Repr

/-- The Writer's local state: `expected_seq` and the out-of-order
side-table `pending` (a Python dict keyed by sequence number, holding
`(text, ts)` pairs; modelled as an association list with unique keys). -/
structure WState where
  expected : Nat
  pending : List (Nat × String × Nat)
deriving DecidableEq, Repr

/-- Dict lookup: `pending[k]` / `k in pending`. -/
def dlookup (k : Nat) : List (Nat × String × Nat) → Option (String × Nat)
  | [] => none
  | (k2, v) :: rest => if k2 = k then some v else dlookup k rest

/-- Dict key removal, the effect of `pending.pop(k)` on the table. -/
def derase (k : Nat) : List (Nat × String × Nat) → List (Nat × String × Nat)
  | [] => []
  | (k2, v) :: rest => if k2 = k then rest else (k2, v) :: derase k rest

/-- Dict write `pending[k] = v` (overwrites any previous binding). -/
def dinsert (k : Nat) (v : String × Nat) (d : List (Nat × String × Nat)) :
    List (Nat × String × Nat) :=
  (k, v) :: derase k d

/-- The keys of the side-table. -/
def keysOf (d : List (Nat × String × Nat)) : List Nat :=
  d.map (fun p => p.1)

/-- The side-table always has pairwise distinct keys (it is a dict). -/
def NodupKeys (d : List (Nat × String × Nat)) : Prop :=
  (keysOf d).Nodup

/-- The drain loop of `websocket_writer` (lines 214-217): while
`expected_seq in pending`, pop it, send its text, and increment
`expected_seq`.  `fuel` is instantiated with the table size, which
bounds the number of iterations since each pop removes a key. -/
def drain : Nat → Nat → List (Nat × String × Nat) →
    List Out × Nat × List (Nat × String × Nat)
  | 0, e, d => ([], e, d)
  | fuel + 1, e, d =>
    match dlookup e d with
    | none => ([], e, d)
    | some v =>
      match drain fuel (e + 1) (derase e d) with
      | (outs, e2, d2) => (Out.tok e v.1 :: outs, e2, d2)

/-- One iteration of the Writer loop body on a dequeued item.  Returns
the messages sent, the successor state, and whether the loop `break`s
(on the `None` terminal or on a `"fail"` result). -/
def writerStep (s : WState) : WItem → List Out × WState × Bool
  | WItem.terminal => ([Out.endTok], s, true)
  | WItem.res RStatus.fail _ _ _ => ([Out.err], s, true)
  | WItem.res RStatus.valid seq text ts =>
    if seq = s.expected then
      match drain s.pending.length (s.expected + 1) s.pending with
      | (outs, e2, d2) => (Out.tok seq text :: outs, ⟨e2, d2⟩, false)
    else
      ([], ⟨s.expected, dinsert seq (text, ts) s.pending⟩, false)

/-- The Writer run on a whole arrival sequence of queue items: the
messages sent, the final state, and whether the loop terminated via
`break` (after a `break` the remaining items are never consumed). -/
def websocket_writer : WState → List WItem → List Out × WState × Bool
  | s, [] => ([], s, false)
  | s, it :: rest =>
    match writerStep s it with
    | (outs, s2, true) => (outs, s2, true)
    | (outs, s2, false) =>
      match websocket_writer s2 rest with
      | (outs2, s3, stopped) => (outs ++ outs2, s3, stopped)

/-- The Writer's initial state (`expected_seq = 0`, empty dict). -/
def writerInit : WState := ⟨0, []⟩

/-- A canonical all-valid result item for sequence `i`. -/
def mkValid (txt : Nat → String) (rts : Nat → Nat) (i : Nat) : WItem :=
  WItem.res RStatus.valid i (txt i) (rts i)

/-- The multiset of results produced when every chunk `0..n-1` passes
validation, listed in sequence order. -/
def validItems (n : Nat) (txt : Nat → String) (rts : Nat → Nat) : List WItem :=
  (List.range n).map (mkValid txt rts)

/-- Sequence number carried by a result item (0 for the terminal). -/
def seqOfItem : WItem → Nat
  | WItem.terminal => 0
  | WItem.res _ seq _ _ => seq

/-- Items on which the Writer loop stops. -/
def isStopper : WItem → Bool
  | WItem.terminal => true
  | WItem.res RStatus.fail _ _ _ => true
  | WItem.res RStatus.valid _ _ _ => false

/-- Terminal client messages (end-marker or error). -/
def isTerminalOut : Out → Bool
  | Out.tok _ _ => false
  | Out.endTok => true
  | Out.err => true

/-! ### Sentence assembler (`extract_complete_sentences_spacy`, `assemble_sentences`)

Texts handled by the assembler are modelled as `List Char` so that the
character-level slicing of the source (`raw_text[:complete_end]`,
`raw_text[complete_end:]`) is explicit.  The spaCy parse `nlp(raw_text)`
is an external collaborator: it is abstracted as a function `sents`
yielding the list of sentence spans, each with its text (`sent.text`)
and its end offset (`sent.end_char`). -/

/-- Truthiness of Python `s.strip()`: the string contains at least one
non-whitespace character. -/
def hasContent (s : List Char) : Bool :=
  s.any (fun c => !c.isWhitespace)

/-- Python `s.rstrip()`. -/
def rstripChars (s : List Char) : List Char :=
  (s.reverse.dropWhile Char.isWhitespace).reverse

/-- The loop of `extract_complete_sentences_spacy` computing
`complete_end`: walk the sentence spans in order; as long as a span's
right-stripped text ends in `.`, `!` or `?`, record its `end_char`;
stop at the first span that does not. -/
def completeEnd : List (List Char × Nat) → Nat → Nat
  | [], acc => acc
  | (txt, ec) :: rest, acc =>
    match (rstripChars txt).getLast? with
    | some c => if c = '.' ∨ c = '!' ∨ c = '?' then completeEnd rest ec else acc
    | none => acc

/-- `extract_complete_sentences_spacy(raw_text)`: returns the complete
prefix (up to the last full-sentence boundary) and the remainder.
`sents` stands for `list(nlp(raw_text).sents)`. -/
def extract_complete_sentences_spacy (sents : List Char → List (List Char × Nat))
    (raw : List Char) : List Char × List Char :=
  if !hasContent raw then ([], raw)
  else
    match sents raw with
    | [] => ([], raw)
    | ss =>
      let ce := completeEnd ss 0
      if 0 < ce then (raw.take ce, raw.drop ce) else ([], raw)

/-- `MAX_BUFFER_CHARS` of the source. -/
def MAX_BUFFER_CHARS : Nat := 200

/-- `MAX_WAIT_SECONDS` of the source (times are abstract `Nat` stamps). -/
def MAX_WAIT_SECONDS : Nat := 3

/-- A chunk `(seq, text, timestamp, is_complete)` put on `chunk_queue`. -/
structure Chunk where
  seq : Nat
  text : List Char
  ts : Nat
  complete : Bool
deriving DecidableEq, Repr

/-- Assembler state: the raw-text buffer, `last_token_time`, and the
next `chunk_seq`. -/
structure AState where
  buffer : List Char
  lastTokenTime : Nat
  chunkSeq : Nat
deriving DecidableEq, Repr

/-- An event observed by the assembler loop: a token arriving at time
`t` and processed at wall-clock `now`, an `asyncio.TimeoutError` of the
2-second `wait_for` at time `t`, or the `None` end-of-stream marker
processed at time `t`. -/
inductive AToken
  | tok : List Char → Nat → Nat → AToken
  | timeout : Nat → AToken
  | endTok : Nat → AToken
deriving DecidableEq, Repr

/-- One iteration of the `assemble_sentences` loop: the successor
state, the chunks put on `chunk_queue`, and whether the loop returned
(on the `None` marker). -/
def assembleStep (sents : List Char → List (List Char × Nat)) (s : AState) :
    AToken → AState × List Chunk × Bool
  | AToken.endTok t =>
    if hasContent s.buffer then
      (⟨s.buffer, s.lastTokenTime, s.chunkSeq + 1⟩,
        [⟨s.chunkSeq, s.buffer, t, false⟩], true)
    else (s, [], true)
  | AToken.tok str t now =>
    let buffer2 := s.buffer ++ str
    match extract_complete_sentences_spacy sents buffer2 with
    | (complete, remaining) =>
      if !complete.isEmpty then
        (⟨remaining, t, s.chunkSeq + 1⟩, [⟨s.chunkSeq, complete, now, true⟩], false)
      else
        let shouldFlush := decide (MAX_WAIT_SECONDS ≤ now - t)
          || decide (MAX_BUFFER_CHARS ≤ buffer2.length)
        if shouldFlush && hasContent buffer2 then
          (⟨[], now, s.chunkSeq + 1⟩, [⟨s.chunkSeq, buffer2, now, false⟩], false)
        else (⟨buffer2, t, s.chunkSeq⟩, [], false)
  | AToken.timeout t =>
    if hasContent s.buffer then
      (⟨[], s.lastTokenTime, s.chunkSeq + 1⟩, [⟨s.chunkSeq, s.buffer, t, false⟩], false)
    else (s, [], false)

/-- The assembler run on a whole event sequence: emitted chunks, final
state, and whether the `None` marker was reached (events after it are
never consumed). -/
def assemble_sentences (sents : List Char → List (List Char × Nat)) :
    AState → List AToken → List Chunk × AState × Bool
  | s, [] => ([], s, false)
  | s, ev :: rest =>
    match assembleStep sents s ev with
    | (s2, cs, true) => (cs, s2, true)
    | (s2, cs, false) =>
      match assemble_sentences sents s2 rest with
      | (cs2, s3, fin) => (cs ++ cs2, s3, fin)

/-- The assembler's initial state (empty buffer, `chunk_seq = 0`). -/
def assemblerInit : AState := ⟨[], 0, 0⟩

/-- The token text carried by an assembler event (empty for timeouts
and the end marker). -/
def tokenTextOf : AToken → List Char
  | AToken.tok s _ _ => s
  | AToken.timeout _ => []
  | AToken.endTok _ => []

/-- Concatenation of the texts of a chunk list. -/
def chunksText (cs : List Chunk) : List Char :=
  (cs.map Chunk.text).flatten

/-- Concatenation of the token texts of an event list. -/
def tokensText (evs : List AToken) : List Char :=
  (evs.map tokenTextOf).flatten

/-! ### Validation worker (`validate_chunk_sync`)

The output guard `guard_output_complete.validate` is the opaque
validation predicate, abstracted as a function returning `Except`:
`Except.error` models the exception raised on a violation. -/

/-- `validate_chunk_sync(seq, text, recv_time, is_complete, write_queue)`:
returns the item put on `write_queue` and whether the output guard was
invoked.  The guard runs only when `is_complete` is true; on a guard
exception a `"fail"` item is enqueued, otherwise a `"valid"` item. -/
def validate_chunk_sync (guard_output_complete : String → Except String Unit)
    (seq : Nat) (text : String) (recv_time : Nat) (is_complete : Bool) :
    WItem × Bool :=
  if is_complete then
    match guard_output_complete text with
    | Except.ok _ => (WItem.res RStatus.valid seq text recv_time, true)
    | Except.error _ => (WItem.res RStatus.fail seq text recv_time, true)
  else
    (WItem.res RStatus.valid seq text recv_time, false)

/-! ### Stream producer (`stream_producer`) -/

/-- A message from the generation backend as parsed by the producer: a
token payload (`{"token": ...}`, where `null` is the backend's end
marker), a backend error (`{"error": ...}`), a JSON object with neither
key, or a message whose parsing raises (malformed JSON). -/
inductive BMsg
  | tokenMsg : Option String → BMsg
  | errorMsg : String → BMsg
  | otherMsg : BMsg
  | malformed : BMsg
deriving DecidableEq, Repr

/-- `stream_producer`: the sequence of values put on `raw_token_queue`
for a given backend message sequence.  The end of the input list covers
both a normal close of the backend socket and any exception while
streaming (connection drop): in every such case the `except` handler or
the post-loop code puts the `None` terminal.  A `null` token or an
error message also terminates with the `None` terminal; a malformed
message raises inside the `try`, which is caught and again puts
`None`. -/
def stream_producer : List BMsg → List (Option String)
  | [] => [none]
  | BMsg.tokenMsg none :: _ => [none]
  | BMsg.tokenMsg (some s) :: rest => some s :: stream_producer rest
  | BMsg.errorMsg _ :: _ => [none]
  | BMsg.otherMsg :: rest => stream_producer rest
  | BMsg.malformed :: _ => [none]

/-! ### Dispatcher / executor / Writer composition

An operational model of one connection's concurrency: the Dispatcher
(`dispatch_validations`) submits chunk validations to the shared
`ThreadPoolExecutor(max_workers=2)` and applies its own backpressure
(`if len(pending) > 4: await asyncio.wait(..., FIRST_COMPLETED)`),
workers finish in arbitrary order and push results onto `write_queue`,
and the Writer thread consumes that queue.  Nondeterminism is resolved
by an explicit event schedule; `sysRun` returns `none` on schedules the
code cannot exhibit. -/

/-- Static data of one connection's run: the number of chunks, and for
each sequence number its text, receive time and completeness flag, plus
the opaque output guard. -/
structure SysParams where
  n : Nat
  txt : Nat → String
  rts : Nat → Nat
  cpl : Nat → Bool
  guardF : String → Except String Unit

/-- The executor's worker-pool size (`max_workers=2`). -/
def MAX_WORKERS : Nat := 2

/-- The Dispatcher's backpressure threshold: after submitting, it
blocks while more than 4 of its submitted futures are unfinished. -/
def DISPATCH_PENDING_LIMIT : Nat := 4

/-- Global state of the Dispatcher / executor / Writer composition. -/
structure SysState where
  nextSubmit : Nat
  queued : List Nat
  running : List Nat
  endSent : Bool
  writeQueue : List WItem
  wstate : WState
  wdone : Bool
  outputs : List Out
deriving Repr

/-- A scheduler event: the Dispatcher submits the next chunk to the
executor, a free worker starts the oldest queued task, the running task
at position `i` finishes (pushing its result), the Dispatcher observes
the end of `chunk_queue` and (after `gather`) pushes the `None`
terminal, or the Writer dequeues and processes one item. -/
inductive SysEv
  | submit
  | start
  | finish : Nat → SysEv
  | submitEnd
  | deliver
deriving DecidableEq, Repr

/-- One scheduler step; `none` when the event is not enabled (the
corresponding thread would be blocked at that point). -/
def sysStep (P : SysParams) (s : SysState) : SysEv → Option SysState
  | SysEv.submit =>
    if s.nextSubmit < P.n ∧ ¬s.endSent ∧
        s.queued.length + s.running.length ≤ DISPATCH_PENDING_LIMIT then
      some { s with
        queued := s.queued ++ [s.nextSubmit],
        nextSubmit := s.nextSubmit + 1 }
    else none
  | SysEv.start =>
    match s.queued with
    | [] => none
    | k :: rest =>
      if s.running.length < MAX_WORKERS then
        some { s with queued := rest, running := s.running ++ [k] }
      else none
  | SysEv.finish i =>
    match s.running.get? i with
    | none => none
    | some k =>
      some { s with
        running := s.running.eraseIdx i,
        writeQueue := s.writeQueue ++
          [(validate_chunk_sync P.guardF k (P.txt k) (P.rts k) (P.cpl k)).1] }
  | SysEv.submitEnd =>
    if s.nextSubmit = P.n ∧ s.queued = [] ∧ s.running = [] ∧ ¬s.endSent then
      some { s with endSent := true, writeQueue := s.writeQueue ++ [WItem.terminal] }
    else none
  | SysEv.deliver =>
    if s.wdone then none
    else
      match s.writeQueue with
      | [] => none
      | it :: rest =>
        match writerStep s.wstate it with
        | (outs, w2, stop) =>
          some { s with
            writeQueue := rest,
            wstate := w2,
            wdone := stop,
            outputs := s.outputs ++ outs }

/-- The initial state of a connection's pipeline. -/
def sysInit : SysState :=
  ⟨0, [], [], false, [], writerInit, false, []⟩

/-- Run a schedule from a state; `none` if any event is not enabled. -/
def sysRun (P : SysParams) : SysState → List SysEv → Option SysState
  | s, [] => some s
  | s, e :: rest =>
    match sysStep P s e with
    | none => none
    | some s2 => sysRun P s2 rest

/-! ### Auxiliary predicates and concrete scenario data -/

/-- A side-table whose entries all carry the canonical text and
timestamp of their sequence number. -/
def canonTable (txt : Nat → String) (rts : Nat → Nat)
    (d : List (Nat × String × Nat)) : Prop :=
  ∀ p ∈ d, p.2.1 = txt p.1 ∧ p.2.2 = rts p.1

/-- The sequence number of a `"valid"` result, `none` otherwise. -/
def validSeqOf : WItem → Option Nat
  | WItem.res RStatus.valid seq _ _ => some seq
  | _ => none

/-- Whether an assembler event is the `None` end-of-stream marker. -/
def isEndEv : AToken → Bool
  | AToken.endTok _ => true
  | _ => false

/-- Scenario for the side-table bound: four chunks, all `Forced` (so
every validation passes without consulting the guard). -/
def cexC6Params : SysParams :=
  ⟨4, fun _ => "x", fun _ => 0, fun _ => false, fun _ => Except.ok ()⟩

/-- Schedule in which the worker running chunk 0 is slow while the
other worker finishes chunks 1, 2 and 3 one after the other; every
result is delivered to the Writer as soon as it is produced. -/
def cexC6Trace : List SysEv :=
  [SysEv.submit, SysEv.start, SysEv.submit, SysEv.start, SysEv.finish 1, SysEv.deliver,
   SysEv.submit, SysEv.start, SysEv.finish 1, SysEv.deliver,
   SysEv.submit, SysEv.start, SysEv.finish 1, SysEv.deliver]

/-- Scenario for determinism: two chunks, chunk 0 `Forced` (passes)
and chunk 1 `Complete` with text `"b"`, which the guard rejects. -/
def cexC10Params : SysParams :=
  ⟨2, fun k => if k = 0 then "a" else "b", fun _ => 0,
   fun k => k == 1,
   fun s => if s == "b" then Except.error "toxic" else Except.ok ()⟩

/-- Schedule A: chunk 0 finishes and is delivered before chunk 1 is
even submitted. -/
def cexC10TraceA : List SysEv :=
  [SysEv.submit, SysEv.start, SysEv.finish 0, SysEv.deliver,
   SysEv.submit, SysEv.start, SysEv.finish 0, SysEv.deliver]

/-- Schedule B: both chunks run concurrently and chunk 1's failing
result reaches the Writer first. -/
def cexC10TraceB : List SysEv :=
  [SysEv.submit, SysEv.submit, SysEv.start, SysEv.start,
   SysEv.finish 1, SysEv.deliver, SysEv.finish 0]

/-- Schedule used to exhibit a nonempty reachable state for the
Dispatcher bound. -/
def witC7Trace : List SysEv :=
  [SysEv.submit, SysEv.start, SysEv.submit, SysEv.start, SysEv.submit]

/-! ### Side-table (dict) lemmas -/

theorem dlookup_eq_none_iff (k : Nat) :
    ∀ d : List (Nat × String × Nat), dlookup k d = none ↔ k ∉ keysOf d := by
  intro d
  induction d with
  | nil => simp [dlookup, keysOf]
  | cons p rest ih =>
    obtain ⟨k2, v⟩ := p
    by_cases h : k2 = k
    · subst h
      simp [dlookup, keysOf]
    · simp only [dlookup, if_neg h, keysOf, List.map_cons, List.mem_cons]
      rw [ih]
      simp only [keysOf]
      constructor
      · intro hn hor
        rcases hor with h1 | h2
        · exact h h1.symm
        · exact hn h2
      · intro hn h2
        exact hn (Or.inr h2)

theorem dlookup_mem {k : Nat} {v : String × Nat} :
    ∀ {d : List (Nat × String × Nat)}, dlookup k d = some v → (k, v) ∈ d := by
  intro d
  induction d with
  | nil => simp [dlookup]
  | cons p rest ih =>
    obtain ⟨k2, v2⟩ := p
    by_cases h : k2 = k
    · subst h
      simp [dlookup]
      intro h2
      exact Or.inl h2.symm
    · simp [dlookup, h]
      intro h2
      exact Or.inr (ih h2)

theorem derase_sublist (k : Nat) :
    ∀ d : List (Nat × String × Nat), (derase k d).Sublist d := by
  intro d
  induction d with
  | nil => simp [derase]
  | cons p rest ih =>
    obtain ⟨k2, v2⟩ := p
    by_cases h : k2 = k
    · simp [derase, h]
    · simp only [derase, if_neg h]
      exact List.Sublist.cons₂ _ ih

theorem derase_of_lookup_none {k : Nat} :
    ∀ {d : List (Nat × String × Nat)}, dlookup k d = none → derase k d = d := by
  intro d
  induction d with
  | nil => simp [derase]
  | cons p rest ih =>
    obtain ⟨k2, v2⟩ := p
    by_cases h : k2 = k
    · simp [dlookup, h]
    · simp [dlookup, derase, h]
      exact ih

theorem keysOf_derase_perm {k : Nat} {v : String × Nat} :
    ∀ {d : List (Nat × String × Nat)}, dlookup k d = some v →
      (keysOf d).Perm (k :: keysOf (derase k d)) := by
  intro d
  induction d with
  | nil => simp [dlookup]
  | cons p rest ih =>
    obtain ⟨k2, v2⟩ := p
    by_cases h : k2 = k
    · subst h
      intro _
      simp [derase, keysOf]
    · intro hl
      simp only [dlookup, if_neg h] at hl
      have := ih hl
      simp only [keysOf, derase, if_neg h, List.map_cons] at this ⊢
      exact (this.cons k2).trans (List.Perm.swap k k2 _)

theorem length_keysOf (d : List (Nat × String × Nat)) :
    (keysOf d).length = d.length := by
  simp [keysOf]

theorem length_derase_of_mem {k : Nat} {v : String × Nat}
    {d : List (Nat × String × Nat)} (h : dlookup k d = some v) :
    (derase k d).length + 1 = d.length := by
  have hp := keysOf_derase_perm h
  have := hp.length_eq
  simp [length_keysOf] at this
  omega

theorem length_derase_le (k : Nat) (d : List (Nat × String × Nat)) :
    (derase k d).length ≤ d.length :=
  (derase_sublist k d).length_le

theorem nodupKeys_derase {k : Nat} {d : List (Nat × String × Nat)}
    (h : NodupKeys d) : NodupKeys (derase k d) := by
  unfold NodupKeys keysOf at h ⊢
  exact h.sublist ((derase_sublist k d).map _)

theorem dlookup_derase_self {k : Nat} {d : List (Nat × String × Nat)}
    (h : NodupKeys d) : dlookup k (derase k d) = none := by
  induction d with
  | nil => simp [derase, dlookup]
  | cons p rest ih =>
    obtain ⟨k2, v2⟩ := p
    unfold NodupKeys keysOf at h
    simp only [List.map_cons, List.nodup_cons] at h
    by_cases hk : k2 = k
    · subst hk
      simp only [derase, if_pos rfl]
      rw [dlookup_eq_none_iff]
      exact h.1
    · simp only [derase, if_neg hk, dlookup, if_neg hk]
      exact ih h.2

theorem dlookup_derase_ne {j k : Nat} (hne : j ≠ k) :
    ∀ d : List (Nat × String × Nat), dlookup j (derase k d) = dlookup j d := by
  intro d
  induction d with
  | nil => simp [derase]
  | cons p rest ih =>
    obtain ⟨k2, v2⟩ := p
    by_cases hk : k2 = k
    · subst hk
      have hj : ¬ (k2 = j) := fun h => hne h.symm
      simp [derase, dlookup, hj]
    · simp only [derase, if_neg hk, dlookup]
      by_cases hj : k2 = j
      · simp [hj]
      · simp only [if_neg hj]
        exact ih

theorem dlookup_dinsert_ne {j k : Nat} (hne : j ≠ k) (v : String × Nat)
    (d : List (Nat × String × Nat)) :
    dlookup j (dinsert k v d) = dlookup j d := by
  unfold dinsert
  simp only [dlookup, if_neg (fun h : k = j => hne h.symm)]
  exact dlookup_derase_ne hne d

theorem keysOf_dinsert_of_none {k : Nat} {d : List (Nat × String × Nat)}
    (h : dlookup k d = none) (v : String × Nat) :
    keysOf (dinsert k v d) = k :: keysOf d := by
  unfold dinsert
  rw [derase_of_lookup_none h]
  simp [keysOf]

theorem nodupKeys_dinsert {k : Nat} {d : List (Nat × String × Nat)}
    (h : NodupKeys d) (v : String × Nat) : NodupKeys (dinsert k v d) := by
  unfold NodupKeys
  unfold dinsert
  have h1 : keysOf ((k, v) :: derase k d) = k :: keysOf (derase k d) := by
    simp [keysOf]
  rw [h1, List.nodup_cons]
  refine ⟨?_, nodupKeys_derase h⟩
  rw [← dlookup_eq_none_iff]
  exact dlookup_derase_self h

theorem length_dinsert_le (k : Nat) (v : String × Nat)
    (d : List (Nat × String × Nat)) :
    (dinsert k v d).length ≤ d.length + 1 := by
  unfold dinsert
  simp only [List.length_cons]
  exact Nat.succ_le_succ (length_derase_le k d)

/-! ### Drain-loop lemmas -/

theorem drain_outs_tok :
    ∀ fuel e d, ∀ o ∈ (drain fuel e d).1, ∃ i t, o = Out.tok i t := by
  intro fuel
  induction fuel with
  | zero => intro e d o ho; simp [drain] at ho
  | succ fuel ih =>
    intro e d o ho
    unfold drain at ho
    cases h : dlookup e d with
    | none => rw [h] at ho; simp at ho
    | some v =>
      rw [h] at ho
      rcases hr : drain fuel (e + 1) (derase e d) with ⟨outs, e2, d2⟩
      rw [hr] at ho
      simp only [List.mem_cons] at ho
      rcases ho with ho | ho
      · exact ⟨e, v.1, ho⟩
      · have := ih (e + 1) (derase e d) o
        rw [hr] at this
        exact this ho

theorem drain_table_length_le :
    ∀ fuel e d, (drain fuel e d).2.2.length ≤ d.length := by
  intro fuel
  induction fuel with
  | zero => intro e d; simp [drain]
  | succ fuel ih =>
    intro e d
    unfold drain
    cases h : dlookup e d with
    | none => simp
    | some v =>
      rcases hr : drain fuel (e + 1) (derase e d) with ⟨outs, e2, d2⟩
      simp only
      have := ih (e + 1) (derase e d)
      rw [hr] at this
      exact this.trans (length_derase_le e d)

theorem drain_spec (txt : Nat → String) (rts : Nat → Nat) :
    ∀ fuel e d, d.length ≤ fuel → NodupKeys d →
    ∃ m outs d2, drain fuel e d = (outs, e + m, d2) ∧
      (∀ o ∈ outs, ∃ i t, o = Out.tok i t ∧ e ≤ i ∧ i < e + m) ∧
      (keysOf d).Perm (List.range' e m ++ keysOf d2) ∧
      NodupKeys d2 ∧
      dlookup (e + m) d2 = none ∧
      (canonTable txt rts d →
        outs = (List.range' e m).map (fun i => Out.tok i (txt i)) ∧
        canonTable txt rts d2) := by
  intro fuel
  induction fuel with
  | zero =>
    intro e d hlen hnd
    have hd : d = [] := List.eq_nil_of_length_eq_zero (Nat.le_zero.mp hlen)
    subst hd
    refine ⟨0, [], [], ?_, ?_, ?_, ?_, ?_, ?_⟩
    · simp [drain]
    · simp
    · simp [keysOf]
    · simp [NodupKeys, keysOf]
    · simp [dlookup]
    · intro hc; exact ⟨by simp, hc⟩
  | succ fuel ih =>
    intro e d hlen hnd
    cases h : dlookup e d with
    | none =>
      refine ⟨0, [], d, ?_, ?_, ?_, ?_, ?_, ?_⟩
      · simp [drain, h]
      · simp
      · simp
      · exact hnd
      · simpa using h
      · intro hc; exact ⟨by simp, hc⟩
    | some v =>
      have hlen2 : (derase e d).length ≤ fuel := by
        have := length_derase_of_mem h
        omega
      have hnd2 : NodupKeys (derase e d) := nodupKeys_derase hnd
      rcases ih (e + 1) (derase e d) hlen2 hnd2 with
        ⟨m, outs, d2, heq, houts, hperm, hnd3, hlook, hcanon⟩
      have hm : e + 1 + m = e + (m + 1) := by omega
      refine ⟨m + 1, Out.tok e v.1 :: outs, d2, ?_, ?_, ?_, ?_, ?_, ?_⟩
      · unfold drain
        rw [h, heq, hm]
      · intro o ho
        rcases List.mem_cons.mp ho with ho | ho
        · exact ⟨e, v.1, ho, Nat.le_refl e, by omega⟩
        · rcases houts o ho with ⟨i, t, rfl, h1, h2⟩
          exact ⟨i, t, rfl, by omega, by omega⟩
      · rw [List.range'_succ]
        exact (keysOf_derase_perm h).trans (hperm.cons e)
      · exact hnd3
      · rw [← hm]; exact hlook
      · intro hc
        have hmem : (e, v) ∈ d := dlookup_mem h
        have hv := hc (e, v) hmem
        have hc2 : canonTable txt rts (derase e d) :=
          fun p hp => hc p ((derase_sublist e d).subset hp)
        rcases hcanon hc2 with ⟨ho, hc3⟩
        refine ⟨?_, hc3⟩
        rw [List.range'_succ, List.map_cons, ← ho, hv.1]

/-! ### Writer run lemmas -/

theorem writer_run_cons_true {s : WState} {it : WItem} {outs : List Out}
    {s2 : WState} (h : writerStep s it = (outs, s2, true)) (rest : List WItem) :
    websocket_writer s (it :: rest) = (outs, s2, true) := by
  simp [websocket_writer, h]

theorem writer_run_cons_false {s : WState} {it : WItem} {outs : List Out}
    {s2 : WState} (h : writerStep s it = (outs, s2, false)) (rest : List WItem) :
    websocket_writer s (it :: rest)
      = (outs ++ (websocket_writer s2 rest).1, (websocket_writer s2 rest).2) := by
  rcases hr : websocket_writer s2 rest with ⟨o2, s3, st⟩
  simp [websocket_writer, h, hr]

theorem writer_run_append (l1 l2 : List WItem) :
    ∀ s : WState, websocket_writer s (l1 ++ l2) =
      if (websocket_writer s l1).2.2 then websocket_writer s l1
      else ((websocket_writer s l1).1
              ++ (websocket_writer (websocket_writer s l1).2.1 l2).1,
            (websocket_writer (websocket_writer s l1).2.1 l2).2) := by
  induction l1 with
  | nil =>
    intro s
    simp [websocket_writer]
  | cons it l1 ih =>
    intro s
    rcases hstep : writerStep s it with ⟨outs, s2, stop⟩
    cases stop with
    | true =>
      rw [List.cons_append, writer_run_cons_true hstep, writer_run_cons_true hstep]
      simp
    | false =>
      rw [List.cons_append, writer_run_cons_false hstep,
        writer_run_cons_false hstep l1, ih s2]
      by_cases hst : (websocket_writer s2 l1).2.2
      · simp [hst]
      · simp [hst, List.append_assoc]

theorem writer_run_out_extends (items later : List WItem) (s : WState) :
    ∃ tail, (websocket_writer s (items ++ later)).1
      = (websocket_writer s items).1 ++ tail := by
  rw [writer_run_append items later s]
  by_cases hst : (websocket_writer s items).2.2
  · exact ⟨[], by simp [hst]⟩
  · exact ⟨(websocket_writer (websocket_writer s items).2.1 later).1, by simp [hst]⟩

theorem writer_run_lt_aux (k : Nat) :
    ∀ items : List WItem, ∀ e d, NodupKeys d →
      (∀ it ∈ items, validSeqOf it ≠ some k) →
      dlookup k d = none → e ≤ k →
      ∀ o ∈ (websocket_writer ⟨e, d⟩ items).1, ∀ i t, o = Out.tok i t → i < k := by
  intro items
  induction items with
  | nil =>
    intro e d _ _ _ _ o ho
    simp [websocket_writer] at ho
  | cons it rest ih =>
    intro e d hnd hval hlk hek o ho i t hot
    subst hot
    match it with
    | WItem.terminal =>
      simp [websocket_writer, writerStep] at ho
    | WItem.res RStatus.fail j tx r =>
      simp [websocket_writer, writerStep] at ho
    | WItem.res RStatus.valid j tx r =>
      have hj : j ≠ k := by
        have := hval _ (List.mem_cons_self _ _)
        simp [validSeqOf] at this
        exact this
      by_cases hje : j = e
      · subst hje
        rcases drain_spec (fun _ => "") (fun _ => 0) d.length (j + 1) d
            (Nat.le_refl _) hnd with ⟨m, outs, d2, heq, houts, hperm, hnd3, hlook, _⟩
        have hjk : j < k := Nat.lt_of_le_of_ne hek hj
        have hknotin : k ∉ keysOf d := (dlookup_eq_none_iff k d).mp hlk
        have hknotin2 : k ∉ List.range' (j + 1) m ++ keysOf d2 := by
          intro hc
          exact hknotin (hperm.mem_iff.mpr hc)
        have hkge : j + 1 + m ≤ k := by
          have h1 : k ∉ List.range' (j + 1) m := fun hc =>
            hknotin2 (List.mem_append.mpr (Or.inl hc))
          rw [List.mem_range'_1] at h1
          omega
        have hkd2 : dlookup k d2 = none := by
          rw [dlookup_eq_none_iff]
          exact fun hc => hknotin2 (List.mem_append.mpr (Or.inr hc))
        have hrun : (websocket_writer ⟨j, d⟩ (WItem.res RStatus.valid j tx r :: rest)).1
            = (Out.tok j tx :: outs) ++ (websocket_writer ⟨j + 1 + m, d2⟩ rest).1 := by
          rcases hrest : websocket_writer ⟨j + 1 + m, d2⟩ rest with ⟨o1, s1, st1⟩
          cases st1 with
          | true => simp [websocket_writer, writerStep, heq, hrest]
          | false => simp [websocket_writer, writerStep, heq, hrest]
        rw [hrun] at ho
        rcases List.mem_append.mp ho with ho | ho
        · rcases List.mem_cons.mp ho with ho | ho
          · simp only [Out.tok.injEq] at ho
            omega
          · rcases houts _ ho with ⟨i2, t2, hoe, hb1, hb2⟩
            simp only [Out.tok.injEq] at hoe
            omega
        · exact ih (j + 1 + m) d2 hnd3
            (fun x hx => hval x (List.mem_cons_of_mem _ hx)) hkd2 hkge _ ho i t rfl
      · have hrun : (websocket_writer ⟨e, d⟩ (WItem.res RStatus.valid j tx r :: rest)).1
            = (websocket_writer ⟨e, dinsert j (tx, r) d⟩ rest).1 := by
          rcases hrest : websocket_writer ⟨e, dinsert j (tx, r) d⟩ rest with ⟨o1, s1, st1⟩
          cases st1 with
          | true => simp [websocket_writer, writerStep, hje, hrest]
          | false => simp [websocket_writer, writerStep, hje, hrest]
        rw [hrun] at ho
        exact ih e (dinsert j (tx, r) d) (nodupKeys_dinsert hnd _)
          (fun x hx => hval x (List.mem_cons_of_mem _ hx))
          (by rw [dlookup_dinsert_ne (Ne.symm hj) _ d]; exact hlk) hek _ ho i t rfl

theorem writer_one_terminal_aux :
    ∀ items : List WItem, ∀ s : WState, items.any isStopper = true →
      ∃ pre t, (websocket_writer s items).1 = pre ++ [t] ∧ isTerminalOut t = true ∧
        ∀ o ∈ pre, isTerminalOut o = false := by
  intro items
  induction items with
  | nil => intro s h; simp at h
  | cons it rest ih =>
    intro s h
    match it with
    | WItem.terminal =>
      refine ⟨[], Out.endTok, ?_, rfl, by simp⟩
      simp [websocket_writer, writerStep]
    | WItem.res RStatus.fail j tx r =>
      refine ⟨[], Out.err, ?_, rfl, by simp⟩
      simp [websocket_writer, writerStep]
    | WItem.res RStatus.valid j tx r =>
      have hrest : rest.any isStopper = true := by
        simp [isStopper] at h
        simpa using h
      by_cases hje : j = s.expected
      · rcases heq : drain s.pending.length (s.expected + 1) s.pending with ⟨outs, e2, d2⟩
        rcases ih ⟨e2, d2⟩ hrest with ⟨pre2, t, hpre, hterm, hnont⟩
        refine ⟨Out.tok j tx :: outs ++ pre2, t, ?_, hterm, ?_⟩
        · rcases hrun2 : websocket_writer ⟨e2, d2⟩ rest with ⟨o2, s2, st2⟩
          cases st2 with
          | true =>
            simp only [hrun2] at hpre
            simp [websocket_writer, writerStep, hje, heq, hrun2, hpre]
          | false =>
            simp only [hrun2] at hpre
            simp [websocket_writer, writerStep, hje, heq, hrun2, hpre]
        · intro o ho
          rcases List.mem_cons.mp ho with ho | ho
          · subst ho; rfl
          · rcases List.mem_append.mp ho with ho | ho
            · have := drain_outs_tok s.pending.length (s.expected + 1) s.pending o
              rw [heq] at this
              rcases this ho with ⟨i2, t2, rfl⟩
              rfl
            · exact hnont o ho
      · rcases ih ⟨s.expected, dinsert j (tx, r) s.pending⟩ hrest with
          ⟨pre2, t, hpre, hterm, hnont⟩
        refine ⟨pre2, t, ?_, hterm, hnont⟩
        rcases hrun2 : websocket_writer ⟨s.expected, dinsert j (tx, r) s.pending⟩ rest
          with ⟨o2, s2, st2⟩
        cases st2 with
        | true =>
          simp only [hrun2] at hpre
          simp [websocket_writer, writerStep, hje, hrun2, hpre]
        | false =>
          simp only [hrun2] at hpre
          simp [websocket_writer, writerStep, hje, hrun2, hpre]

/-! ### Range bookkeeping helpers -/

theorem range_add_range' (a : Nat) :
    ∀ b : Nat, List.range (a + b) = List.range a ++ List.range' a b := by
  intro b
  induction b with
  | zero => simp
  | succ b ih =>
    have h1 : a + (b + 1) = (a + b) + 1 := by omega
    rw [h1, List.range_succ (a + b), ih, List.range'_1_concat, List.append_assoc]

theorem range'_split (s a b : Nat) :
    List.range' s (a + b) = List.range' s a ++ List.range' (s + a) b := by
  rw [Nat.add_comm a b, ← List.range'_append_1 s a b]

/-! ### The Writer reorders every all-valid interleaving into sequence order -/

theorem writer_run_perm_aux (n : Nat) (txt : Nat → String) (rts : Nat → Nat) :
    ∀ items : List WItem, ∀ e d,
      NodupKeys d → canonTable txt rts d →
      (∀ it ∈ items, ∃ j, it = mkValid txt rts j) →
      (List.range e ++ keysOf d ++ items.map seqOfItem).Perm (List.range n) →
      (∀ k ∈ keysOf d, e < k) →
      (websocket_writer ⟨e, d⟩ items).1
        = (List.range' e (n - e)).map (fun i => Out.tok i (txt i))
      ∧ (websocket_writer ⟨e, d⟩ items).2.2 = false := by
  intro items
  induction items with
  | nil =>
    intro e d hnd hcanon hshape hperm hkeys
    have hne : n ≤ e := by
      by_contra hc
      push_neg at hc
      have hmem : e ∈ List.range e ++ keysOf d ++ List.map seqOfItem [] :=
        hperm.mem_iff.mpr (List.mem_range.mpr hc)
      simp only [List.map_nil, List.append_nil, List.mem_append, List.mem_range] at hmem
      rcases hmem with h1 | h2
      · exact absurd h1 (Nat.lt_irrefl e)
      · exact absurd (hkeys e h2) (Nat.lt_irrefl e)
    have h0 : n - e = 0 := by omega
    rw [h0]
    simp [websocket_writer]
  | cons it rest ih =>
    intro e d hnd hcanon hshape hperm hkeys
    rcases hshape it (List.mem_cons_self it rest) with ⟨j, rfl⟩
    have hseq : (mkValid txt rts j :: rest).map seqOfItem
        = j :: rest.map seqOfItem := by
      simp [mkValid, seqOfItem]
    rw [hseq] at hperm
    have hshape2 : ∀ x ∈ rest, ∃ j2, x = mkValid txt rts j2 :=
      fun x hx => hshape x (List.mem_cons_of_mem _ hx)
    have hnd_all : (List.range e ++ (keysOf d ++ (j :: rest.map seqOfItem))).Nodup := by
      have := hperm.symm.nodup (List.nodup_range n)
      simpa using this
    rw [List.nodup_append] at hnd_all
    obtain ⟨-, hnd_r, hdisj1⟩ := hnd_all
    rw [List.nodup_append] at hnd_r
    obtain ⟨-, hnd_jc, hdisj2⟩ := hnd_r
    have hj_not_range : j ∉ List.range e := fun hc =>
      hdisj1 hc (List.mem_append.mpr (Or.inr (List.mem_cons_self j _)))
    have hj_not_keys : j ∉ keysOf d := fun hc => hdisj2 hc (List.mem_cons_self j _)
    have hj_ge : e ≤ j := by
      rcases Nat.lt_or_ge j e with h | h
      · exact absurd (List.mem_range.mpr h) hj_not_range
      · exact h
    by_cases hje : j = e
    · subst hje
      rcases drain_spec txt rts d.length (j + 1) d (Nat.le_refl _) hnd with
        ⟨m, outs, d2, heq, houts, hperm2, hnd3, hlook, hcanon2⟩
      rcases hcanon2 hcanon with ⟨houts_eq, hcan3⟩
      have hstep : writerStep ⟨j, d⟩ (mkValid txt rts j)
          = (Out.tok j (txt j) :: outs, ⟨j + 1 + m, d2⟩, false) := by
        simp [writerStep, mkValid, heq]
      have hkeys2 : ∀ k ∈ keysOf d2, j + 1 + m < k := by
        intro k hk
        have hkd : k ∈ keysOf d := hperm2.mem_iff.mpr (List.mem_append.mpr (Or.inr hk))
        have hgt : j < k := hkeys k hkd
        have hnd_rng : (List.range' (j + 1) m ++ keysOf d2).Nodup := hperm2.nodup hnd
        rw [List.nodup_append] at hnd_rng
        have hnotrng : k ∉ List.range' (j + 1) m := fun hc => hnd_rng.2.2 hc hk
        have hne2 : k ≠ j + 1 + m := by
          intro hc
          rw [dlookup_eq_none_iff] at hlook
          exact hlook (hc ▸ hk)
        rw [List.mem_range'_1] at hnotrng
        omega
      have hpermNew : (List.range (j + 1 + m) ++ keysOf d2 ++ rest.map seqOfItem).Perm
          (List.range n) := by
        have hre2 : List.range (j + 1 + m)
            = List.range j ++ j :: List.range' (j + 1) m := by
          have h1 : j + 1 + m = j + (m + 1) := by omega
          rw [h1, range_add_range' j (m + 1), List.range'_succ]
        refine List.Perm.trans ?_ hperm
        rw [← Multiset.coe_eq_coe, hre2]
        have hp2 := Multiset.coe_eq_coe.mpr hperm2
        simp only [← Multiset.coe_add] at hp2
        simp only [← Multiset.coe_add, ← Multiset.cons_coe, ← Multiset.singleton_add]
        rw [hp2]
        abel
      obtain ⟨hout_ih, hstop_ih⟩ :=
        ih (j + 1 + m) d2 hnd3 hcan3 hshape2 hpermNew hkeys2
      have hle : j + 1 + m ≤ n := by
        by_contra hc
        push_neg at hc
        have h3 : n ∈ List.range (j + 1 + m) := List.mem_range.mpr hc
        have h4 : n ∈ List.range n :=
          hpermNew.subset (List.mem_append.mpr (Or.inl (List.mem_append.mpr (Or.inl h3))))
        exact absurd (List.mem_range.mp h4) (Nat.lt_irrefl n)
      constructor
      · rw [writer_run_cons_false hstep rest]
        simp only
        rw [hout_ih, houts_eq]
        have h1 : n - j = (m + 1) + (n - (j + 1 + m)) := by omega
        have h2 : j + (m + 1) = j + 1 + m := by omega
        rw [h1, range'_split, h2, List.map_append, List.range'_succ, List.map_cons]
      · rw [writer_run_cons_false hstep rest]
        simp only
        exact hstop_ih
    · have hj_gt : e < j := Nat.lt_of_le_of_ne hj_ge (fun h => hje h.symm)
      have hjd : dlookup j d = none := (dlookup_eq_none_iff j d).mpr hj_not_keys
      have hstep : writerStep ⟨e, d⟩ (mkValid txt rts j)
          = ([], ⟨e, dinsert j (txt j, rts j) d⟩, false) := by
        simp [writerStep, mkValid, hje]
      have hd2eq : dinsert j (txt j, rts j) d = (j, (txt j, rts j)) :: d := by
        unfold dinsert
        rw [derase_of_lookup_none hjd]
      have hcan2 : canonTable txt rts (dinsert j (txt j, rts j) d) := by
        rw [hd2eq]
        intro p hp
        rcases List.mem_cons.mp hp with hp | hp
        · subst hp; exact ⟨rfl, rfl⟩
        · exact hcanon p hp
      have hkeys2 : ∀ k ∈ keysOf (dinsert j (txt j, rts j) d), e < k := by
        rw [keysOf_dinsert_of_none hjd]
        intro k hk
        rcases List.mem_cons.mp hk with hk | hk
        · subst hk; exact hj_gt
        · exact hkeys k hk
      have hpermNew : (List.range e ++ keysOf (dinsert j (txt j, rts j) d)
          ++ rest.map seqOfItem).Perm (List.range n) := by
        rw [keysOf_dinsert_of_none hjd]
        refine List.Perm.trans ?_ hperm
        rw [← Multiset.coe_eq_coe]
        simp only [← Multiset.coe_add, ← Multiset.cons_coe, ← Multiset.singleton_add]
        abel
      obtain ⟨hout_ih, hstop_ih⟩ :=
        ih e (dinsert j (txt j, rts j) d) (nodupKeys_dinsert hnd _)
          hcan2 hshape2 hpermNew hkeys2
      constructor
      · rw [writer_run_cons_false hstep rest]
        simpa using hout_ih
      · rw [writer_run_cons_false hstep rest]
        simp only
        exact hstop_ih

theorem writer_run_perm (n : Nat) (txt : Nat → String) (rts : Nat → Nat)
    (items : List WItem) (h : items.Perm (validItems n txt rts)) :
    (websocket_writer writerInit items).1
      = (List.range n).map (fun i => Out.tok i (txt i))
    ∧ (websocket_writer writerInit items).2.2 = false := by
  have hshape : ∀ it ∈ items, ∃ j, it = mkValid txt rts j := by
    intro it hit
    have : it ∈ validItems n txt rts := h.subset hit
    rcases List.mem_map.mp this with ⟨j, -, rfl⟩
    exact ⟨j, rfl⟩
  have hseqs : (items.map seqOfItem).Perm (List.range n) := by
    have h2 := h.map seqOfItem
    have h3 : (validItems n txt rts).map seqOfItem = List.range n := by
      simp [validItems, mkValid, seqOfItem, List.map_map]
      exact List.map_id _
    rw [h3] at h2
    exact h2
  have haux := writer_run_perm_aux n txt rts items 0 []
    (by simp [NodupKeys, keysOf]) (by intro p hp; simp at hp)
    hshape (by simpa using hseqs) (by intro k hk; simp [keysOf] at hk)
  have hrw : (List.range' 0 (n - 0)).map (fun i => Out.tok i (txt i))
      = (List.range n).map (fun i => Out.tok i (txt i)) := by
    rw [Nat.sub_zero, ← List.range_eq_range']
  constructor
  · rw [show writerInit = (⟨0, []⟩ : WState) from rfl]
    rw [haux.1, hrw]
  · rw [show writerInit = (⟨0, []⟩ : WState) from rfl]
    exact haux.2

theorem writer_pending_le_aux :
    ∀ items : List WItem, ∀ s : WState,
      (websocket_writer s items).2.1.pending.length
        ≤ s.pending.length + items.length := by
  intro items
  induction items with
  | nil => intro s; simp [websocket_writer]
  | cons it rest ih =>
    intro s
    match it with
    | WItem.terminal =>
      have hstep : writerStep s WItem.terminal = ([Out.endTok], s, true) := rfl
      rw [writer_run_cons_true hstep rest]
      simp
    | WItem.res RStatus.fail j tx r =>
      have hstep : writerStep s (WItem.res RStatus.fail j tx r)
          = ([Out.err], s, true) := rfl
      rw [writer_run_cons_true hstep rest]
      simp
    | WItem.res RStatus.valid j tx r =>
      by_cases hje : j = s.expected
      · rcases heq : drain s.pending.length (s.expected + 1) s.pending with
          ⟨outs, e2, d2⟩
        have hstep : writerStep s (WItem.res RStatus.valid j tx r)
            = (Out.tok j tx :: outs, ⟨e2, d2⟩, false) := by
          simp [writerStep, hje, heq]
        rw [writer_run_cons_false hstep rest]
        simp only
        have h1 := ih ⟨e2, d2⟩
        have h2 : d2.length ≤ s.pending.length := by
          have := drain_table_length_le s.pending.length (s.expected + 1) s.pending
          rw [heq] at this
          exact this
        simp only [List.length_cons] at h1 ⊢
        omega
      · have hstep : writerStep s (WItem.res RStatus.valid j tx r)
            = ([], ⟨s.expected, dinsert j (tx, r) s.pending⟩, false) := by
          simp [writerStep, hje]
        rw [writer_run_cons_false hstep rest]
        simp only
        have h1 := ih ⟨s.expected, dinsert j (tx, r) s.pending⟩
        have h2 := length_dinsert_le j (tx, r) s.pending
        simp only [List.length_cons] at h1 ⊢
        omega

/-! ### Claim theorems for the Ordered Writer -/

/-- C1: for every interleaving of arrival orders of the all-valid
validation results of chunks `0..n-1`, the Writer emits the tokens in
strictly increasing sequence order `0, 1, ..., n-1`: a result arriving
ahead of its turn is buffered in the side-table and is sent only after
every smaller sequence number has been sent, and a result matching
`expected_seq` is emitted at once followed by the contiguous buffered
run. -/
theorem C1_writer_emits_in_sequence_order (n : Nat) (txt : Nat → String)
    (rts : Nat → Nat) (items : List WItem)
    (h : items.Perm (validItems n txt rts)) :
    (websocket_writer writerInit items).1
      = (List.range n).map (fun i => Out.tok i (txt i)) :=
  (writer_run_perm n txt rts items h).1

/-- C1 witness: the two results of a 2-chunk stream arriving in reversed
order are still emitted as token 0 then token 1. -/
theorem C1_witness :
    (websocket_writer writerInit
        [WItem.res RStatus.valid 1 "b" 5, WItem.res RStatus.valid 0 "a" 4]).1
      = (List.range 2).map
          (fun i => Out.tok i ((fun i => if i = 0 then "a" else "b") i)) :=
  C1_writer_emits_in_sequence_order 2 (fun i => if i = 0 then "a" else "b")
    (fun i => i + 4) _ (by decide)

/-- C2: if the queue never carries a `"valid"` result for sequence `k`
(chunk `k` failed validation), then every token the Writer emits has
sequence number strictly below `k` — no chunk at or after the failing
submission position is ever sent, whatever the completion order — and
the already-sent output is only ever extended, never retracted. -/
theorem C2_abort_cuts_at_failing_sequence (k : Nat) (items later : List WItem)
    (h : ∀ it ∈ items, validSeqOf it ≠ some k) :
    (∀ o ∈ (websocket_writer writerInit items).1, ∀ i t, o = Out.tok i t → i < k)
    ∧ ∃ tail, (websocket_writer writerInit (items ++ later)).1
        = (websocket_writer writerInit items).1 ++ tail := by
  constructor
  · have haux := writer_run_lt_aux k items 0 []
      (by simp [NodupKeys, keysOf])
      (by
        intro it hit
        have h2 := h it hit
        intro hc
        rcases it with _ | ⟨st, j, tx, r⟩
        · simp [validSeqOf] at hc
        · cases st
          · simp [validSeqOf] at hc h2
            omega
          · simp [validSeqOf] at hc)
      (by simp [dlookup]) (Nat.zero_le k)
    rw [show writerInit = (⟨0, []⟩ : WState) from rfl]
    exact haux
  · exact writer_run_out_extends items later writerInit

/-- C2 witness: with chunk 1 failing, only token 0 can ever be emitted,
and feeding more results afterwards only appends to the output. -/
theorem C2_witness :
    (∀ o ∈ (websocket_writer writerInit
        [WItem.res RStatus.valid 0 "a" 0, WItem.res RStatus.fail 1 "b" 0]).1,
      ∀ i t, o = Out.tok i t → i < 1)
    ∧ ∃ tail, (websocket_writer writerInit
        ([WItem.res RStatus.valid 0 "a" 0, WItem.res RStatus.fail 1 "b" 0]
          ++ [WItem.res RStatus.valid 2 "c" 0])).1
        = (websocket_writer writerInit
            [WItem.res RStatus.valid 0 "a" 0, WItem.res RStatus.fail 1 "b" 0]).1
          ++ tail :=
  C2_abort_cuts_at_failing_sequence 1 _ _ (by decide)

/-- C3: whenever the Writer's queue contains a stopping item (the `None`
terminal or a failure result), the messages the Writer sends consist of
non-terminal token messages followed by exactly one terminal event
(end-marker or error); nothing is sent after the terminal event. -/
theorem C3_exactly_one_terminal (items : List WItem)
    (h : items.any isStopper = true) :
    ∃ pre t, (websocket_writer writerInit items).1 = pre ++ [t] ∧
      isTerminalOut t = true ∧ ∀ o ∈ pre, isTerminalOut o = false :=
  writer_one_terminal_aux items writerInit h

/-- C3 witness: a valid result followed by the terminal yields one token
and then the single end-marker. -/
theorem C3_witness :
    ∃ pre t, (websocket_writer writerInit
        [WItem.res RStatus.valid 0 "a" 0, WItem.terminal]).1 = pre ++ [t] ∧
      isTerminalOut t = true ∧ ∀ o ∈ pre, isTerminalOut o = false :=
  C3_exactly_one_terminal _ (by decide)

/-- C6 counterexample: with the executor's pool of `MAX_WORKERS = 2`
workers, the schedule `cexC6Trace` (worker running chunk 0 is slow, the
other worker completes chunks 1, 2, 3 in turn) reaches a pipeline state
in which the Writer's side-table holds 3 entries — more than the
worker-pool size. -/
theorem C6_counterexample :
    (sysRun cexC6Params sysInit cexC6Trace).map
        (fun s => s.wstate.pending.length) = some 3
    ∧ ¬ (3 ≤ MAX_WORKERS) := by
  exact ⟨by decide, by decide⟩

/-- C6 amended: the side-table is not bounded by the worker-pool size;
what holds is that it never has more entries than the number of
validation results the Writer has received so far (and hence never more
than the connection's total chunk count). -/
theorem C6_amended_pending_le_received (items : List WItem) :
    (websocket_writer writerInit items).2.1.pending.length ≤ items.length := by
  have := writer_pending_le_aux items writerInit
  simpa [writerInit] using this

/-! ### Dispatcher backpressure invariant -/

theorem sysStep_preserves_bounds (P : SysParams) (s s2 : SysState) (e : SysEv)
    (h : sysStep P s e = some s2)
    (h1 : s.queued.length + s.running.length ≤ DISPATCH_PENDING_LIMIT + 1)
    (h2 : s.running.length ≤ MAX_WORKERS) :
    s2.queued.length + s2.running.length ≤ DISPATCH_PENDING_LIMIT + 1 ∧
    s2.running.length ≤ MAX_WORKERS := by
  cases e with
  | submit =>
    simp only [sysStep] at h
    split_ifs at h with hc
    rcases Option.some.injEq _ _ ▸ h with rfl
    simp only [List.length_append, List.length_cons, List.length_nil]
    obtain ⟨-, -, hc3⟩ := hc
    exact ⟨by omega, h2⟩
  | start =>
    simp only [sysStep] at h
    rcases hq : s.queued with _ | ⟨k, qrest⟩
    · rw [hq] at h; simp at h
    · rw [hq] at h
      split_ifs at h with hc
      rcases Option.some.injEq _ _ ▸ h with rfl
      simp only [List.length_append, List.length_cons, List.length_nil]
      have hql : s.queued.length = qrest.length + 1 := by rw [hq]; simp
      exact ⟨by omega, by omega⟩
  | finish i =>
    simp only [sysStep] at h
    rcases hr : s.running.get? i with _ | k
    · rw [hr] at h; simp at h
    · rw [hr] at h
      rcases Option.some.injEq _ _ ▸ h with rfl
      have hlen : (s.running.eraseIdx i).length ≤ s.running.length :=
        (List.eraseIdx_sublist s.running i).length_le
      exact ⟨by simp only; omega, by simp only; omega⟩
  | submitEnd =>
    simp only [sysStep] at h
    split_ifs at h with hc
    rcases Option.some.injEq _ _ ▸ h with rfl
    exact ⟨h1, h2⟩
  | deliver =>
    simp only [sysStep] at h
    split_ifs at h with hc
    rcases hq : s.writeQueue with _ | ⟨it, qrest⟩
    · rw [hq] at h; simp at h
    · rw [hq] at h
      injection h with h3
      subst h3
      exact ⟨h1, h2⟩

theorem sysRun_inv (P : SysParams) :
    ∀ evs : List SysEv, ∀ s s2 : SysState,
      sysRun P s evs = some s2 →
      s.queued.length + s.running.length ≤ DISPATCH_PENDING_LIMIT + 1 →
      s.running.length ≤ MAX_WORKERS →
      s2.queued.length + s2.running.length ≤ DISPATCH_PENDING_LIMIT + 1 ∧
      s2.running.length ≤ MAX_WORKERS := by
  intro evs
  induction evs with
  | nil =>
    intro s s2 h h1 h2
    simp only [sysRun] at h
    rcases Option.some.injEq _ _ ▸ h with rfl
    exact ⟨h1, h2⟩
  | cons e rest ih =>
    intro s s2 h h1 h2
    simp only [sysRun] at h
    cases hst : sysStep P s e with
    | none => rw [hst] at h; exact absurd h (by simp)
    | some s3 =>
      rw [hst] at h
      have hpres := sysStep_preserves_bounds P s s3 e hst h1 h2
      exact ih s3 s2 h hpres.1 hpres.2

/-- C7: along every schedule of the pipeline, the Dispatcher never has
more than `DISPATCH_PENDING_LIMIT + 1 = 5` validation tasks outstanding
(submitted and unfinished) — once 5 are outstanding it must observe a
completion before submitting another, as witnessed by the `submit`
guard — and the executor never runs more than `MAX_WORKERS = 2`
validations concurrently. -/
theorem C7_dispatcher_bounded (P : SysParams) (evs : List SysEv) (s : SysState)
    (h : sysRun P sysInit evs = some s) :
    s.queued.length + s.running.length ≤ DISPATCH_PENDING_LIMIT + 1 ∧
    s.running.length ≤ MAX_WORKERS ∧
    ∀ s2, sysStep P s SysEv.submit = some s2 →
      s.queued.length + s.running.length ≤ DISPATCH_PENDING_LIMIT := by
  have hinv := sysRun_inv P evs sysInit s h (by simp [sysInit]) (by simp [sysInit])
  refine ⟨hinv.1, hinv.2, ?_⟩
  intro s2 h2
  simp only [sysStep] at h2
  split_ifs at h2 with hc
  exact hc.2.2

/-- C7 witness: after the five-event schedule `witC7Trace` the bounds
hold at the reached state. -/
theorem C7_witness :
    ∃ s, sysRun cexC6Params sysInit witC7Trace = some s ∧
      (s.queued.length + s.running.length ≤ DISPATCH_PENDING_LIMIT + 1 ∧
       s.running.length ≤ MAX_WORKERS ∧
       ∀ s2, sysStep cexC6Params s SysEv.submit = some s2 →
         s.queued.length + s.running.length ≤ DISPATCH_PENDING_LIMIT) := by
  have hrun : sysRun cexC6Params sysInit witC7Trace
      = some ⟨3, [2], [0, 1], false, [], writerInit, false, []⟩ := rfl
  exact ⟨_, hrun, C7_dispatcher_bounded cexC6Params witC7Trace _ hrun⟩

/-- C10 counterexample: the same two chunks with the same validation
outcomes (chunk 0 passes, chunk 1 fails) produce different client
output sequences under two legitimate schedules: schedule A emits token
0 then the error, schedule B emits only the error. -/
theorem C10_counterexample :
    (sysRun cexC10Params sysInit cexC10TraceA).map (fun s => s.outputs)
        = some [Out.tok 0 "a", Out.err]
    ∧ (sysRun cexC10Params sysInit cexC10TraceB).map (fun s => s.outputs)
        = some [Out.err]
    ∧ ([Out.tok 0 "a", Out.err] : List Out) ≠ [Out.err] := by
  exact ⟨by decide, by decide, by decide⟩

/-- C10 amended: when every chunk passes validation, the output is
scheduling-independent — any two arrival interleavings of the all-valid
results, each followed by the Dispatcher's terminal, produce identical
output message sequences.  (With a failing chunk, the emitted valid
prefix varies with completion timing, as the counterexample shows.) -/
theorem C10_amended_all_valid_deterministic (n : Nat) (txt : Nat → String)
    (rts : Nat → Nat) (items1 items2 : List WItem)
    (h1 : items1.Perm (validItems n txt rts))
    (h2 : items2.Perm (validItems n txt rts)) :
    (websocket_writer writerInit (items1 ++ [WItem.terminal])).1
      = (websocket_writer writerInit (items2 ++ [WItem.terminal])).1 := by
  have key : ∀ items : List WItem, items.Perm (validItems n txt rts) →
      (websocket_writer writerInit (items ++ [WItem.terminal])).1
        = (List.range n).map (fun i => Out.tok i (txt i)) ++ [Out.endTok] := by
    intro items hp
    rcases writer_run_perm n txt rts items hp with ⟨hout, hstop⟩
    rw [writer_run_append items [WItem.terminal] writerInit]
    rw [if_neg (by rw [hstop]; exact Bool.false_ne_true)]
    simp only [hout]
    have hterm : ∀ s : WState, (websocket_writer s [WItem.terminal]).1 = [Out.endTok] := by
      intro s
      simp [websocket_writer, writerStep]
    rw [hterm]
  rw [key items1 h1, key items2 h2]

/-- C10 amended witness: reversed all-valid arrival orders for two
chunks give the same final output sequence. -/
theorem C10_amended_witness :
    (websocket_writer writerInit
        ([WItem.res RStatus.valid 0 "a" 4, WItem.res RStatus.valid 1 "b" 5]
          ++ [WItem.terminal])).1
      = (websocket_writer writerInit
          ([WItem.res RStatus.valid 1 "b" 5, WItem.res RStatus.valid 0 "a" 4]
            ++ [WItem.terminal])).1 :=
  C10_amended_all_valid_deterministic 2 (fun i => if i = 0 then "a" else "b")
    (fun i => i + 4) _ _ (by decide) (by decide)

/-! ### Assembler lemmas -/

theorem extract_concat (sents : List Char → List (List Char × Nat))
    (raw : List Char) :
    (extract_complete_sentences_spacy sents raw).1
      ++ (extract_complete_sentences_spacy sents raw).2 = raw := by
  unfold extract_complete_sentences_spacy
  split_ifs with h1
  · simp
  · cases hs : sents raw with
    | nil => simp
    | cons a ss =>
      simp only
      split_ifs with h2
      · exact List.take_append_drop _ raw
      · simp

theorem chunksText_append (cs1 cs2 : List Chunk) :
    chunksText (cs1 ++ cs2) = chunksText cs1 ++ chunksText cs2 := by
  simp [chunksText]

theorem hasContent_eq_false {s : List Char} (h : hasContent s = false) :
    ∀ c ∈ s, c.isWhitespace = true := by
  intro c hc
  unfold hasContent at h
  rw [List.any_eq_false] at h
  have := h c hc
  simpa using this

theorem assembleStep_concat (sents : List Char → List (List Char × Nat))
    (s : AState) (ev : AToken) (h : isEndEv ev = false) :
    chunksText (assembleStep sents s ev).2.1 ++ (assembleStep sents s ev).1.buffer
      = s.buffer ++ tokenTextOf ev
    ∧ (assembleStep sents s ev).2.2 = false := by
  match ev with
  | AToken.endTok t => simp [isEndEv] at h
  | AToken.tok str t now =>
    rcases hx : extract_complete_sentences_spacy sents (s.buffer ++ str) with ⟨c, rem⟩
    have hcr : c ++ rem = s.buffer ++ str := by
      have h2 := extract_concat sents (s.buffer ++ str)
      rw [hx] at h2
      exact h2
    simp only [assembleStep, tokenTextOf, hx]
    by_cases hce : c.isEmpty
    · rw [if_neg (by simp [hce])]
      split_ifs with hf
      · constructor <;> simp [chunksText]
      · constructor <;> simp [chunksText]
    · rw [if_pos (by simp [hce])]
      constructor <;> simp [chunksText, hcr]
  | AToken.timeout t =>
    simp only [assembleStep, tokenTextOf]
    split_ifs with hf
    · constructor <;> simp [chunksText]
    · constructor <;> simp [chunksText]

theorem assemble_run_cons_true {sents : List Char → List (List Char × Nat)}
    {s : AState} {ev : AToken} {s2 : AState} {cs : List Chunk}
    (h : assembleStep sents s ev = (s2, cs, true)) (rest : List AToken) :
    assemble_sentences sents s (ev :: rest) = (cs, s2, true) := by
  simp [assemble_sentences, h]

theorem assemble_run_cons_false {sents : List Char → List (List Char × Nat)}
    {s : AState} {ev : AToken} {s2 : AState} {cs : List Chunk}
    (h : assembleStep sents s ev = (s2, cs, false)) (rest : List AToken) :
    assemble_sentences sents s (ev :: rest)
      = (cs ++ (assemble_sentences sents s2 rest).1,
         (assemble_sentences sents s2 rest).2) := by
  rcases hr : assemble_sentences sents s2 rest with ⟨cs2, s3, fin⟩
  simp [assemble_sentences, h, hr]

theorem assemble_concat_aux (sents : List Char → List (List Char × Nat)) :
    ∀ evs : List AToken, ∀ s : AState, (∀ ev ∈ evs, isEndEv ev = false) →
      chunksText (assemble_sentences sents s evs).1
          ++ (assemble_sentences sents s evs).2.1.buffer
        = s.buffer ++ tokensText evs
      ∧ (assemble_sentences sents s evs).2.2 = false := by
  intro evs
  induction evs with
  | nil =>
    intro s h
    simp [assemble_sentences, chunksText, tokensText]
  | cons ev rest ih =>
    intro s h
    have hev : isEndEv ev = false := h ev (List.mem_cons_self _ _)
    rcases hstep : assembleStep sents s ev with ⟨s2, cs, fin⟩
    have hstepc := assembleStep_concat sents s ev hev
    rw [hstep] at hstepc
    rcases hstepc with ⟨hconcat, hfin⟩
    simp only at hconcat hfin
    subst hfin
    rw [assemble_run_cons_false hstep rest]
    rcases ih s2 (fun x hx => h x (List.mem_cons_of_mem _ hx)) with ⟨ih1, ih2⟩
    constructor
    · simp only [chunksText_append]
      rw [List.append_assoc, ih1, ← List.append_assoc, hconcat]
      simp [tokensText, List.append_assoc]
    · exact ih2

/-! ### Claim theorems for the Assembler, Producer and validation worker -/

/-- C4 counterexample: a whitespace-only token stream followed by the
terminal marker produces no chunks at all, so the emitted chunks do not
concatenate back to the input tokens — the trailing whitespace is
dropped (the source's `if raw_buffer.strip()` guard). -/
theorem C4_counterexample :
    ¬ (chunksText (assemble_sentences (fun _ => []) assemblerInit
          [AToken.tok [' '] 0 0, AToken.endTok 1]).1
        = tokensText [AToken.tok [' '] 0 0, AToken.endTok 1]) := by
  decide

theorem assemble_run_append (sents : List Char → List (List Char × Nat))
    (l1 l2 : List AToken) :
    ∀ s : AState, assemble_sentences sents s (l1 ++ l2) =
      if (assemble_sentences sents s l1).2.2 then assemble_sentences sents s l1
      else ((assemble_sentences sents s l1).1
              ++ (assemble_sentences sents (assemble_sentences sents s l1).2.1 l2).1,
            (assemble_sentences sents (assemble_sentences sents s l1).2.1 l2).2) := by
  induction l1 with
  | nil => intro s; simp [assemble_sentences]
  | cons ev l1 ih =>
    intro s
    rcases hstep : assembleStep sents s ev with ⟨s2, cs, fin⟩
    cases fin with
    | true =>
      rw [List.cons_append, assemble_run_cons_true hstep, assemble_run_cons_true hstep]
      simp
    | false =>
      rw [List.cons_append, assemble_run_cons_false hstep,
        assemble_run_cons_false hstep l1, ih s2]
      by_cases hst : (assemble_sentences sents s2 l1).2.2
      · simp [hst]
      · simp [hst, List.append_assoc]

/-- C4 amended: the concatenation of the emitted chunk texts equals the
concatenation of the input tokens up to a dropped trailing residue that
is entirely whitespace; in particular, whenever the residual buffer
contains any non-whitespace character it is flushed and equality is
exact. -/
theorem C4_concat_up_to_trailing_whitespace
    (sents : List Char → List (List Char × Nat)) (evs : List AToken) (t : Nat)
    (h : ∀ ev ∈ evs, isEndEv ev = false) :
    ∃ w : List Char, (∀ c ∈ w, c.isWhitespace = true) ∧
      chunksText (assemble_sentences sents assemblerInit
          (evs ++ [AToken.endTok t])).1 ++ w
        = tokensText evs := by
  rcases assemble_concat_aux sents evs assemblerInit h with ⟨hconcat, hfin⟩
  rw [assemble_run_append sents evs [AToken.endTok t] assemblerInit, if_neg (by
    rw [hfin]; exact Bool.false_ne_true)]
  simp only
  have hinit : assemblerInit.buffer = [] := rfl
  rw [hinit, List.nil_append] at hconcat
  by_cases hb : hasContent (assemble_sentences sents assemblerInit evs).2.1.buffer
  · refine ⟨[], by simp, ?_⟩
    have hstep : assembleStep sents (assemble_sentences sents assemblerInit evs).2.1
        (AToken.endTok t)
        = (⟨(assemble_sentences sents assemblerInit evs).2.1.buffer,
            (assemble_sentences sents assemblerInit evs).2.1.lastTokenTime,
            (assemble_sentences sents assemblerInit evs).2.1.chunkSeq + 1⟩,
           [⟨(assemble_sentences sents assemblerInit evs).2.1.chunkSeq,
             (assemble_sentences sents assemblerInit evs).2.1.buffer, t, false⟩],
           true) := by
      simp [assembleStep, hb]
    rw [assemble_run_cons_true hstep []]
    rw [chunksText_append]
    simp only [chunksText, List.map_cons, List.map_nil, List.flatten_cons,
      List.flatten_nil, List.append_nil]
    simpa [chunksText] using hconcat
  · refine ⟨(assemble_sentences sents assemblerInit evs).2.1.buffer,
      hasContent_eq_false (Bool.of_not_eq_true hb ▸ rfl), ?_⟩
    have hstep : assembleStep sents (assemble_sentences sents assemblerInit evs).2.1
        (AToken.endTok t)
        = ((assemble_sentences sents assemblerInit evs).2.1, [], true) := by
      simp only [assembleStep]
      rw [if_neg]
      simp only [Bool.not_eq_true] at hb
      rw [hb]
      exact Bool.false_ne_true
    rw [assemble_run_cons_true hstep []]
    simpa using hconcat

/-- C4 amended witness: a short token stream with no whitespace residue
reassembles exactly. -/
theorem C4_amended_witness :
    ∃ w : List Char, (∀ c ∈ w, c.isWhitespace = true) ∧
      chunksText (assemble_sentences (fun _ => []) assemblerInit
          ([AToken.tok ['h', 'i'] 0 0] ++ [AToken.endTok 1])).1 ++ w
        = tokensText [AToken.tok ['h', 'i'] 0 0] :=
  C4_concat_up_to_trailing_whitespace (fun _ => []) [AToken.tok ['h', 'i'] 0 0] 1
    (by decide)

theorem assembleStep_seq (sents : List Char → List (List Char × Nat))
    (s : AState) (ev : AToken) :
    (assembleStep sents s ev).2.1.map Chunk.seq
      = List.range' s.chunkSeq (assembleStep sents s ev).2.1.length ∧
    (assembleStep sents s ev).1.chunkSeq
      = s.chunkSeq + (assembleStep sents s ev).2.1.length := by
  match ev with
  | AToken.endTok t =>
    simp only [assembleStep]
    split_ifs with hb <;> simp
  | AToken.tok str t now =>
    simp only [assembleStep]
    rcases hx : extract_complete_sentences_spacy sents (s.buffer ++ str) with ⟨c, rem⟩
    by_cases hce : c.isEmpty
    · simp only [hce, Bool.not_true]
      split_ifs with hf <;> simp
    · simp only [hce, Bool.not_false]
      simp
  | AToken.timeout t =>
    simp only [assembleStep]
    split_ifs with hb <;> simp

theorem assemble_seq_aux (sents : List Char → List (List Char × Nat)) :
    ∀ evs : List AToken, ∀ s : AState,
      (assemble_sentences sents s evs).1.map Chunk.seq
        = List.range' s.chunkSeq (assemble_sentences sents s evs).1.length ∧
      (assemble_sentences sents s evs).2.1.chunkSeq
        = s.chunkSeq + (assemble_sentences sents s evs).1.length := by
  intro evs
  induction evs with
  | nil => intro s; simp [assemble_sentences]
  | cons ev rest ih =>
    intro s
    rcases hstep : assembleStep sents s ev with ⟨s2, cs, fin⟩
    have hsq := assembleStep_seq sents s ev
    rw [hstep] at hsq
    simp only at hsq
    rcases hsq with ⟨hmap, hcnt⟩
    cases fin with
    | true =>
      rw [assemble_run_cons_true hstep rest]
      exact ⟨hmap, hcnt⟩
    | false =>
      rw [assemble_run_cons_false hstep rest]
      rcases ih s2 with ⟨ih1, ih2⟩
      constructor
      · simp only [List.map_append, List.length_append]
        rw [hmap, ih1, hcnt, range'_split]
      · simp only [List.length_append]
        rw [ih2, hcnt]
        omega

/-- C5: the sequence numbers of the chunks the Assembler emits on one
connection are exactly `0, 1, 2, ...` in emission order — strictly
increasing, gapless, starting at 0 and never reused — whichever flush
condition (sentence boundary, size cap, timeout, or terminal marker)
produced each chunk. -/
theorem C5_sequence_numbers_gapless (sents : List Char → List (List Char × Nat))
    (evs : List AToken) :
    (assemble_sentences sents assemblerInit evs).1.map Chunk.seq
      = List.range ((assemble_sentences sents assemblerInit evs).1.length) := by
  have h := (assemble_seq_aux sents evs assemblerInit).1
  rw [List.range_eq_range']
  simpa [assemblerInit] using h

/-- C8: whatever the backend does — normal end of stream, a `null`
token, a backend-reported error, an unparseable message, or a
connection drop (modelled by the message list ending) — the Stream
Producer's pushes are some token values followed by exactly one
terminal `None`, so downstream stages always receive their end
signal. -/
theorem C8_producer_always_sends_terminal (msgs : List BMsg) :
    ∃ toks : List String, stream_producer msgs = toks.map some ++ [none] := by
  induction msgs with
  | nil => exact ⟨[], rfl⟩
  | cons m rest ih =>
    match m with
    | BMsg.tokenMsg none => exact ⟨[], rfl⟩
    | BMsg.tokenMsg (some s) =>
      rcases ih with ⟨toks, htoks⟩
      exact ⟨s :: toks, by simp [stream_producer, htoks]⟩
    | BMsg.errorMsg e => exact ⟨[], rfl⟩
    | BMsg.otherMsg =>
      rcases ih with ⟨toks, htoks⟩
      exact ⟨toks, by simpa [stream_producer] using htoks⟩
    | BMsg.malformed => exact ⟨[], rfl⟩

/-- C9: a `Forced` chunk (`is_complete = false`) never invokes the
output guard and is always enqueued as a `"valid"` result; the guard is
invoked exactly when the chunk is `Complete`. -/
theorem C9_forced_chunks_skip_guard (g : String → Except String Unit)
    (seq : Nat) (text : String) (rt : Nat) :
    validate_chunk_sync g seq text rt false
        = (WItem.res RStatus.valid seq text rt, false)
    ∧ ∀ ic : Bool, (validate_chunk_sync g seq text rt ic).2 = ic := by
  constructor
  · rfl
  · intro ic
    cases ic
    · rfl
    · simp only [validate_chunk_sync, if_true]
      cases g text <;> rfl

end Guardrails
